import Mathlib

/-!
Verification of the `brainf` REPL (src/lib.rs, src/main.rs).

Shallow embedding conventions:
* Rust `usize` values are modelled as `Nat`; at the one place where the
  source can underflow (`Interpreter::backward`, `self.cursor = i - 1`) and
  at the instruction-pointer advance (`self.cursor += 1`) the release-mode
  wraparound semantics is modelled explicitly via `% USIZE` with
  `USIZE = 2 ^ 64`.  Cell arithmetic uses the source's `wrapping_add` /
  `wrapping_sub`, modelled as `% 256`.
* A Rust `Vec` used as a stack (`push` / `pop` at the end) is modelled as a
  `List` whose head is the stack top.
* Console I/O is modelled by explicit data flow: the line read by
  `read_input` is a parameter (threaded as a `stdin` line stream on
  `Brain`), its prompt printing has no state and is dropped, and
  `process::exit(0)` / the early `return` of `tokenize` are surfaced as a
  `TokExit` result.  `read_line` at EOF leaves the buffer empty, so EOF is
  the empty line.
-/

namespace BrainfRepl

set_option maxRecDepth 4000
set_option maxHeartbeats 1000000

/-- Rust: `2 ^ 64`, the modulus of `usize` arithmetic (release mode wraps). -/
def USIZE : Nat := 2 ^ 64

/-- Rust `enum Token` (src/lib.rs 41-51). -/
inductive Token where
  | PointerIncrement
  | PointerDecrement
  | DataIncrement
  | DataDecrement
  | Input
  | Output
  | JumpForward (i : Nat)
  | JumpBackward (i : Nat)
deriving DecidableEq, Repr

/-- Rust `struct Parser` (src/lib.rs 54-60).  `match_stack` head = Vec top. -/
structure Parser where
  tokens : List Token
  match_stack : List Nat
  cursor : Nat
  prev_cursor : Nat
deriving DecidableEq, Repr

/-- Rust `Parser::new` (src/lib.rs 63-70). -/
def Parser.new : Parser := ⟨[], [], 0, 0⟩

/-- Rust `Parser::push_token` (src/lib.rs 101-104). -/
def Parser.push_token (p : Parser) (t : Token) : Parser :=
  { p with tokens := p.tokens ++ [t], cursor := p.cursor + 1 }

/-- Rust `Parser::reset` (src/lib.rs 138-143). -/
def Parser.reset (p : Parser) : Parser :=
  { tokens := [], match_stack := [],
    prev_cursor := p.prev_cursor + p.cursor, cursor := 0 }

/-- Rust `Parser::error` (src/lib.rs 133-136); the println is stateless. -/
def Parser.error (p : Parser) : Parser := p.reset

/-- Rust `Parser::push_match` (src/lib.rs 106-131).  The `Bool` is
`Result::is_err()` of the returned `Result<(), ()>`. -/
def Parser.push_match (p : Parser) (t : Token) : Parser × Bool :=
  match t with
  | .JumpForward _ =>
    let cursor := p.cursor
    (({ p with match_stack := cursor :: p.match_stack }).push_token
        (.JumpForward 0), false)
  | .JumpBackward _ =>
    match p.match_stack with
    | [] => (p.error, true)
    | i :: rest =>
      let prev_cursor := p.prev_cursor
      let p1 : Parser :=
        { p with
          match_stack := rest
          tokens := p.tokens.set i (.JumpForward (p.cursor + prev_cursor)) }
      (p1.push_token (.JumpBackward (i + prev_cursor)), false)
  | _ => (p, false)

/-- How one call of `Parser::tokenize` can end: run off the end of the
input, early-`return` after an unbalanced `']'`, or `process::exit(0)`
on `'?'` (src/lib.rs 89-95). -/
inductive TokExit where
  | normal
  | unbalanced
  | quit
deriving DecidableEq, Repr

/-- One iteration of the `for n in input.chars()` loop of
`Parser::tokenize` (src/lib.rs 80-99). -/
def tokStep (p : Parser) (c : Char) : Parser × TokExit :=
  if c = '>' then (p.push_token .PointerIncrement, .normal)
  else if c = '<' then (p.push_token .PointerDecrement, .normal)
  else if c = '+' then (p.push_token .DataIncrement, .normal)
  else if c = '-' then (p.push_token .DataDecrement, .normal)
  else if c = '.' then (p.push_token .Output, .normal)
  else if c = ',' then (p.push_token .Input, .normal)
  else if c = '[' then
    let r := p.push_match (.JumpForward 0)
    (r.1, if r.2 then .unbalanced else .normal)
  else if c = ']' then
    let r := p.push_match (.JumpBackward 0)
    (r.1, if r.2 then .unbalanced else .normal)
  else if c = '?' then (p, .quit)
  else (p, .normal)

/-- Rust `Parser::tokenize` (src/lib.rs 80-99): the char loop with its two
early exits made explicit. -/
def tokenizeCore : Parser → List Char → Parser × TokExit
  | p, [] => (p, .normal)
  | p, c :: cs =>
    match (tokStep p c).2 with
    | .normal => tokenizeCore (tokStep p c).1 cs
    | .unbalanced => ((tokStep p c).1, .unbalanced)
    | .quit => ((tokStep p c).1, .quit)

/-- The parser state after a `Parser::tokenize` call. -/
def tokenize (p : Parser) (input : List Char) : Parser :=
  (tokenizeCore p input).1

/-- Rust Unicode `White_Space` property, used by `char::is_whitespace`
(the definition `str::trim` strips by). -/
def isRustWhitespace (c : Char) : Bool :=
  decide ((0x09 ≤ c.toNat ∧ c.toNat ≤ 0x0D) ∨ c.toNat = 0x20 ∨
    c.toNat = 0x85 ∨ c.toNat = 0xA0 ∨ c.toNat = 0x1680 ∨
    (0x2000 ≤ c.toNat ∧ c.toNat ≤ 0x200A) ∨ c.toNat = 0x2028 ∨
    c.toNat = 0x2029 ∨ c.toNat = 0x202F ∨ c.toNat = 0x205F ∨
    c.toNat = 0x3000)

/-- Rust `str::trim`: drop leading and trailing whitespace. -/
def trim (l : List Char) : List Char :=
  List.rdropWhile isRustWhitespace (l.dropWhile isRustWhitespace)

/-- Rust `read_input` (src/lib.rs 18-25) applied to the raw line the user
typed: the prompt print is stateless, `read_line` fills `line`, and the
result is `line.trim().to_string()`. -/
def read_input (line : List Char) : List Char := trim line

/-- Rust `struct Brain` (src/lib.rs 203-208), with the console byte source
made explicit as a `stdin` stream of raw lines (one per `input()` call;
an exhausted stream is EOF, where `read_line` leaves the line empty). -/
structure Brain where
  cells : List Nat
  ptr : Nat
  output_buffer : List Nat
  stdin : List (List Char)
deriving DecidableEq, Repr

/-- Rust `Brain::new` (src/lib.rs 211-217). -/
def Brain.new : Brain := ⟨[0], 0, [], []⟩

/-- Rust `Brain::read_byte` (src/lib.rs 219-221): one console line through
`read_input`. -/
def Brain.read_byte (b : Brain) : List Char × Brain :=
  match b.stdin with
  | [] => (read_input [], b)
  | l :: rest => (read_input l, { b with stdin := rest })

/-- Rust `Brain::add` (src/lib.rs 263-265): `wrapping_add` on the `u8`
cell under the cursor.  `cells[ptr]` is in bounds whenever
`ptr < cells.len()`, which every reachable state satisfies. -/
def Brain.add (b : Brain) (n : Nat) : Brain :=
  { b with cells := b.cells.set b.ptr ((b.cells.getD b.ptr 0 + n) % 256) }

/-- Rust `Brain::increment` (src/lib.rs 255-257). -/
def Brain.increment (b : Brain) : Brain := b.add 1

/-- Rust `Brain::decrement` (src/lib.rs 259-261): `wrapping_sub(1)` on a
`u8` is adding 255 mod 256. -/
def Brain.decrement (b : Brain) : Brain :=
  { b with cells := b.cells.set b.ptr ((b.cells.getD b.ptr 0 + 255) % 256) }

/-- Rust `Brain::input` (src/lib.rs 230-235): first char of the read line,
truncated to 8 bits (`n as u8` keeps the low 8 bits of the scalar). -/
def Brain.input (b : Brain) : Brain :=
  let r := b.read_byte
  match r.1.head? with
  | some n => r.2.add (n.toNat % 256)
  | none => r.2

/-- Rust `Brain::output` (src/lib.rs 237-239): buffer the cell value as a
character code. -/
def Brain.output (b : Brain) : Brain :=
  { b with output_buffer := b.output_buffer ++ [b.cells.getD b.ptr 0] }

/-- Rust `Brain::ptr_right` (src/lib.rs 241-246). -/
def Brain.ptr_right (b : Brain) : Brain :=
  let p := b.ptr + 1
  if p > b.cells.length - 1 then
    { b with ptr := p, cells := b.cells ++ [0] }
  else
    { b with ptr := p }

/-- Rust `Brain::ptr_left` (src/lib.rs 248-253). -/
def Brain.ptr_left (b : Brain) : Brain :=
  if b.ptr = 0 then b else { b with ptr := b.ptr - 1 }

/-- Rust `Brain::is_zero` (src/lib.rs 267-269). -/
def Brain.is_zero (b : Brain) : Bool :=
  b.cells.getD b.ptr 0 == 0

/-- Rust `Brain::flush_output_buffer` (src/lib.rs 223-228): the second
component is what gets printed. -/
def Brain.flush_output_buffer (b : Brain) : Brain × List Nat :=
  if b.output_buffer = [] then (b, [])
  else ({ b with output_buffer := [] }, b.output_buffer)

/-- Rust `struct Interpreter` (src/lib.rs 147-152). -/
structure Interpreter where
  brain : Brain
  tokens : List Token
  cursor : Nat
deriving DecidableEq, Repr

/-- Rust `Interpreter::new` (src/lib.rs 155-161). -/
def Interpreter.new : Interpreter := ⟨Brain.new, [], 0⟩

/-- Rust `Interpreter::take_tokens` (src/lib.rs 168-170). -/
def Interpreter.take_tokens (s : Interpreter) (ts : List Token) : Interpreter :=
  { s with tokens := s.tokens ++ ts }

/-- Rust `Interpreter::forward` (src/lib.rs 190-194). -/
def Interpreter.forward (s : Interpreter) (i : Nat) : Interpreter :=
  if s.brain.is_zero then { s with cursor := i } else s

/-- Rust `Interpreter::backward` (src/lib.rs 196-198): `self.cursor = i - 1`
on `usize`; in release mode `0 - 1` wraps to `USIZE - 1` (a debug build
panics there). -/
def Interpreter.backward (s : Interpreter) (i : Nat) : Interpreter :=
  { s with cursor := (i + (USIZE - 1)) % USIZE }

/-- The match arms of the dispatch `match self.tokens[cursor]` inside
`Interpreter::interpret` (src/lib.rs 175-184). -/
def Interpreter.dispatch (s : Interpreter) : Token → Interpreter
  | .PointerIncrement => { s with brain := s.brain.ptr_right }
  | .PointerDecrement => { s with brain := s.brain.ptr_left }
  | .DataIncrement => { s with brain := s.brain.increment }
  | .DataDecrement => { s with brain := s.brain.decrement }
  | .Output => { s with brain := s.brain.output }
  | .Input => { s with brain := s.brain.input }
  | .JumpForward i => s.forward i
  | .JumpBackward i => s.backward i

/-- One iteration of the `while` loop of `Interpreter::interpret`
(src/lib.rs 172-188): dispatch on `tokens[cursor]`, then
`self.cursor += 1` (wrapping in release mode).  The `none` branch is
unreachable under the loop guard `cursor < tokens.len()`. -/
def Interpreter.step (s : Interpreter) : Interpreter :=
  let s1 :=
    match s.tokens[s.cursor]? with
    | some tok => s.dispatch tok
    | none => s
  { s1 with cursor := (s1.cursor + 1) % USIZE }

/-- Rust `Interpreter::interpret` (src/lib.rs 172-188) as a fuelled loop:
with enough fuel the result is the loop's exit state (the final
`flush_output_buffer` is modelled separately). -/
def Interpreter.interpret : Nat → Interpreter → Interpreter
  | 0, s => s
  | fuel + 1, s =>
    if s.cursor < s.tokens.length then Interpreter.interpret fuel s.step else s

/-- One iteration of the REPL loop of `main` (src/main.rs 21-40), driven by
one console line: tokenize it into the parser; once the match stack is
empty the fragment is committed (`take_tokens` moves `parser.tokens` onto
the engine's global list — kept abstract here as the accumulated `List
Token` — and `parser.reset()` runs).  Execution does not change the token
list, so the committed list is the engine-relevant state. -/
def sessionStep (st : List Token × Parser) (line : List Char) :
    List Token × Parser :=
  let p' := tokenize st.2 line
  if p'.match_stack = [] then (st.1 ++ p'.tokens, p'.reset) else (st.1, p')

/-- A whole session: the REPL loop of `main` over a list of console lines,
starting from `Parser::new` and an empty global instruction list. -/
def runSession (lines : List (List Char)) : List Token × Parser :=
  lines.foldl sessionStep ([], Parser.new)

/-- Every `tokenize` call of the session avoids the unbalanced-`']'` early
return (mirrors the parser states of `runSession`). -/
def sessionOk : Parser → List (List Char) → Bool
  | _, [] => true
  | p, line :: rest =>
    if (tokenizeCore p line).2 = TokExit.unbalanced then false
    else sessionOk (if (tokenizeCore p line).1.match_stack = []
      then (tokenizeCore p line).1.reset else (tokenizeCore p line).1) rest

/-- The tape well-formedness invariant of the spec: length at least 1 and
the cursor within bounds. -/
def TapeInv (b : Brain) : Prop :=
  1 ≤ b.cells.length ∧ b.ptr < b.cells.length

instance (b : Brain) : Decidable (TapeInv b) :=
  inferInstanceAs (Decidable (1 ≤ b.cells.length ∧ b.ptr < b.cells.length))

/-- n consecutive `ptr_right` operations. -/
def iterRight : Nat → Brain → Brain
  | 0, b => b
  | n + 1, b => iterRight n b.ptr_right

/-- The bracket-resolution invariant tying a parser state to the engine's
committed global instruction list `g`.  Writing `F` for `g ++ p.tokens`
(the final positions the local buffer will occupy once committed):
`prev_cursor` counts the instructions before the local buffer, `cursor`
the local ones; the match stack (top = head) holds strictly decreasing
local indices of placeholder `JumpForward 0` entries; every resolved
`JumpBackward` and every resolved `JumpForward` point at each other by
absolute index; and a `JumpBackward` of the current fragment points into
the current fragment. -/
structure Inv (g : List Token) (p : Parser) : Prop where
  prev_eq : p.prev_cursor = g.length
  cursor_eq : p.cursor = p.tokens.length
  stack_sorted : p.match_stack.Pairwise (· > ·)
  stack_mem : ∀ j ∈ p.match_stack,
    j < p.tokens.length ∧ p.tokens[j]? = some (Token.JumpForward 0)
  jb_ok : ∀ k t, (g ++ p.tokens)[k]? = some (Token.JumpBackward t) →
    t < k ∧ (g ++ p.tokens)[t]? = some (Token.JumpForward k)
  jf_ok : ∀ i t, (g ++ p.tokens)[i]? = some (Token.JumpForward t) →
    (t = 0 ∧ ∃ j ∈ p.match_stack, i = g.length + j) ∨
    (i < t ∧ (g ++ p.tokens)[t]? = some (Token.JumpBackward i))
  jb_local : ∀ k t, (g ++ p.tokens)[k]? = some (Token.JumpBackward t) →
    g.length ≤ k → g.length ≤ t

/-- The demo program of the spec's end-to-end test. -/
def progA : List Char := ("++++++[>++++++++++<-]>+++++.").toList

/-! ## Helper lemmas -/

theorem getElem?_snoc {α : Type} (l : List α) (x : α) (m : Nat) :
    (l ++ [x])[m]? = if m = l.length then some x else l[m]? := by
  by_cases h : m = l.length
  · subst h
    rw [if_pos rfl]
    exact List.getElem?_concat_length l x
  · rw [if_neg h]
    rcases Nat.lt_or_ge m l.length with hlt | hge
    · exact List.getElem?_append_left hlt
    · have hgt : l.length < m := by omega
      rw [List.getElem?_append_right hge]
      rw [List.getElem?_eq_none (l := [x]) (by simp; omega),
        List.getElem?_eq_none (by omega)]

theorem trim_cons_of_head (l : List Char) (c : Char) (rest : List Char)
    (h : l.dropWhile isRustWhitespace = c :: rest) :
    ∃ cs, trim l = c :: cs := by
  have hc : isRustWhitespace c = false := by
    have hh := List.head?_dropWhile_not isRustWhitespace l
    rw [h] at hh
    simpa using hh
  have hne : List.rdropWhile isRustWhitespace (c :: rest) ≠ [] := by
    rw [ne_eq, List.rdropWhile_eq_nil_iff]
    intro hall
    have := hall c (List.mem_cons_self c rest)
    rw [hc] at this
    exact Bool.noConfusion this
  obtain ⟨tail, htail⟩ :=
    List.rdropWhile_prefix (p := isRustWhitespace) (l := c :: rest)
  unfold trim
  rw [h]
  cases hr : List.rdropWhile isRustWhitespace (c :: rest) with
  | nil => exact absurd hr hne
  | cons y ys =>
    rw [hr] at htail
    have hy : y = c := by
      have := congrArg List.head? htail
      simpa using this
    exact ⟨ys, by rw [hy]⟩

theorem trim_of_all_whitespace (l : List Char)
    (h : ∀ x ∈ l, isRustWhitespace x) : trim l = [] := by
  unfold trim
  rw [List.dropWhile_eq_nil_iff.mpr (by intro x hx; simp [h x hx])]
  exact List.rdropWhile_nil _

/-! ## C3: what `Parser::reset` actually does at the end of a fragment -/

/-- C3 counterexample: after the balanced fragment `[]` is committed by the
session loop and the parser reset, the cumulative offset `prev_cursor`
is 2, not 0 — `Parser::reset` folds the local cursor into it instead of
clearing it. -/
theorem c3_counterexample :
    (runSession [(("[]").toList)]).2.prev_cursor = 2 ∧ (2 : Nat) ≠ 0 :=
  ⟨by decide, by decide⟩

/-- C3 (amended): whenever a fragment ends — the balanced-commit path of
`main` and the unbalanced-error path both run `Parser::reset` — the token
buffer, the PendingMatch stack and the local cursor are cleared, but the
cumulative offset is advanced by the local cursor (`prev_cursor += cursor`)
rather than being reset to 0: it records how many instructions have been
handed off (or discarded) so far, which is exactly what makes later
fragments' jump targets absolute indices into the engine's list. -/
theorem c3_reset_clears_local_state (p : Parser) :
    p.reset.tokens = [] ∧ p.reset.match_stack = [] ∧ p.reset.cursor = 0 ∧
    p.reset.prev_cursor = p.prev_cursor + p.cursor ∧ p.error = p.reset :=
  ⟨rfl, rfl, rfl, rfl, rfl⟩

/-! ## C4: `Interpreter::backward` underflows on target 0 -/

/-- C4 (code bug): the session whose first fragment is `[]` really produces
a `JumpBackward` with target 0, and dispatching it executes
`self.cursor = i - 1` with `i = 0`, which underflows `usize`: in release
mode the instruction pointer takes the wrapped value `2 ^ 64 - 1` (a debug
build panics at this subtraction), contradicting the requirement that no
wrapped or negative pointer value ever arise. -/
theorem c4_backward_zero_wraps :
    (runSession [(("[]").toList)]).1 = [.JumpForward 1, .JumpBackward 0] ∧
    (Interpreter.backward ⟨Brain.new, [.JumpForward 1, .JumpBackward 0], 1⟩
        0).cursor = USIZE - 1 ∧
    USIZE - 1 = 18446744073709551615 :=
  ⟨by decide, by decide, by decide⟩

/-! ## C5: dispatch semantics of the two jump instructions -/

/-- C5: one dispatch step on `JumpForward t` (JumpIfZero) with the current
cell zero resumes at `t + 1`, with the cell nonzero at the next
instruction; one dispatch step on `JumpBackward t` (JumpIfNonZero)
unconditionally resumes exactly at `t` (for `t = 0` via the double
`usize` wraparound of release mode); neither jump touches the tape, the
output buffer or the input stream. -/
theorem c5_jump_dispatch (s : Interpreter) (t : Nat)
    (_hc : s.cursor < s.tokens.length) :
    (s.tokens[s.cursor]? = some (Token.JumpForward t) → t + 1 < USIZE →
      s.cursor + 1 < USIZE →
      s.step = { s with cursor := if s.brain.is_zero then t + 1
                                  else s.cursor + 1 }) ∧
    (s.tokens[s.cursor]? = some (Token.JumpBackward t) → t < USIZE →
      s.step = { s with cursor := t }) := by
  have hU : 1 ≤ USIZE := by decide
  have hstep : ∀ tok : Token, s.tokens[s.cursor]? = some tok →
      s.step = { s.dispatch tok with
        cursor := ((s.dispatch tok).cursor + 1) % USIZE } := by
    intro tok htok
    unfold Interpreter.step
    rw [htok]
  constructor
  · intro h h1 h2
    rw [hstep _ h]
    have hf : s.dispatch (Token.JumpForward t) = s.forward t := rfl
    rw [hf]
    unfold Interpreter.forward
    cases hz : s.brain.is_zero
    · simp only [hz]
      rw [if_neg Bool.false_ne_true, if_neg Bool.false_ne_true]
      rw [Interpreter.mk.injEq]
      exact ⟨rfl, rfl, Nat.mod_eq_of_lt h2⟩
    · simp only [hz, if_true]
      rw [Interpreter.mk.injEq]
      exact ⟨rfl, rfl, Nat.mod_eq_of_lt h1⟩
  · intro h h1
    rw [hstep _ h]
    have hb : s.dispatch (Token.JumpBackward t)
        = { s with cursor := (t + (USIZE - 1)) % USIZE } := rfl
    rw [hb]
    dsimp only
    rw [Interpreter.mk.injEq]
    refine ⟨rfl, rfl, ?_⟩
    match t with
    | 0 =>
      rw [Nat.zero_add]
      rw [Nat.mod_eq_of_lt (show USIZE - 1 < USIZE by omega)]
      rw [show USIZE - 1 + 1 = USIZE by omega]
      exact Nat.mod_self USIZE
    | k + 1 =>
      rw [show k + 1 + (USIZE - 1) = k + USIZE by omega]
      rw [Nat.add_mod_right k USIZE]
      rw [Nat.mod_eq_of_lt (show k < USIZE by omega)]
      exact Nat.mod_eq_of_lt h1

/-- Witness for C5 at a concrete state: fresh brain (cell 0 is zero), token
list `[JumpForward 1]`, cursor 0: the step jumps to instruction 2. -/
theorem c5_jump_dispatch_witness :
    (⟨Brain.new, [Token.JumpForward 1], 0⟩ : Interpreter).step =
      { (⟨Brain.new, [Token.JumpForward 1], 0⟩ : Interpreter) with
        cursor := if (Brain.new).is_zero then 2 else 1 } :=
  (c5_jump_dispatch ⟨Brain.new, [Token.JumpForward 1], 0⟩ 1
    (by decide)).1 (by decide) (by decide) (by decide)

/-! ## C2: behaviour of a tokenize call that hits an unbalanced close -/

theorem tokStep_snd_cases (p : Parser) (c : Char) :
    (tokStep p c).2 = TokExit.normal ∨
    ((tokStep p c).2 = TokExit.unbalanced ∧ (tokStep p c).1 = p.reset) ∨
    ((tokStep p c).2 = TokExit.quit ∧ (tokStep p c).1 = p) := by
  unfold tokStep
  split_ifs with h1 h2 h3 h4 h5 h6 h7 h8 h9
  · exact Or.inl rfl
  · exact Or.inl rfl
  · exact Or.inl rfl
  · exact Or.inl rfl
  · exact Or.inl rfl
  · exact Or.inl rfl
  · exact Or.inl rfl
  · -- the ']' branch: depends on the match stack
    cases hms : p.match_stack with
    | nil =>
      refine Or.inr (Or.inl ?_)
      simp only [Parser.push_match, hms]
      exact ⟨rfl, rfl⟩
    | cons i rest =>
      refine Or.inl ?_
      simp only [Parser.push_match, hms]
      rfl
  · exact Or.inr (Or.inr ⟨rfl, rfl⟩)
  · exact Or.inl rfl

theorem tokStep_of_unbalanced {p : Parser} {c : Char}
    (h : (tokStep p c).2 = .unbalanced) :
    (tokStep p c).1 = p.reset := by
  rcases tokStep_snd_cases p c with hn | ⟨_, he⟩ | ⟨hq, _⟩
  · rw [hn] at h; exact absurd h (by simp)
  · exact he
  · rw [hq] at h; exact absurd h (by simp)

theorem tokenizeCore_unbalanced_reset :
    ∀ (line : List Char) (p p' : Parser),
    tokenizeCore p line = (p', .unbalanced) → ∃ q : Parser, p' = q.reset := by
  intro line
  induction line with
  | nil => intro p p' h; exact absurd h (by simp [tokenizeCore])
  | cons c cs ih =>
    intro p p' h
    rw [tokenizeCore] at h
    split at h
    · exact ih _ _ h
    · rename_i heq
      obtain ⟨h1, _⟩ := Prod.mk.injEq .. ▸ h
      exact ⟨p, by rw [← h1, tokStep_of_unbalanced heq]⟩
    · exact absurd h (by simp)

theorem tokenizeCore_unbalanced_stops :
    ∀ (line : List Char) (p p' : Parser),
    tokenizeCore p line = (p', .unbalanced) →
    ∀ rest, tokenizeCore p (line ++ rest) = (p', .unbalanced) := by
  intro line
  induction line with
  | nil => intro p p' h; exact absurd h (by simp [tokenizeCore])
  | cons c cs ih =>
    intro p p' h rest
    rw [tokenizeCore] at h
    rw [List.cons_append, tokenizeCore]
    split at h
    · exact ih _ _ h rest
    · exact h
    · exact absurd h (by simp)

/-- C2: when a `tokenize` call encounters an unbalanced `']'`, the parser's
whole local fragment buffer is discarded and the PendingMatch stack and
local cursor cleared; the rest of that input is never scanned (feeding any
longer input with the same prefix gives the identical outcome); and the
session loop commits nothing — the engine's global instruction list is
unchanged.  The error is not fatal: the call returns a well-defined reset
parser state that the session loop keeps using. -/
theorem c2_unbalanced_close (p p' : Parser) (line : List Char)
    (h : tokenizeCore p line = (p', .unbalanced)) :
    p'.tokens = [] ∧ p'.match_stack = [] ∧ p'.cursor = 0 ∧
    (∀ rest, tokenizeCore p (line ++ rest) = (p', .unbalanced)) ∧
    (∀ g, (sessionStep (g, p) line).1 = g) := by
  obtain ⟨q, hq⟩ := tokenizeCore_unbalanced_reset line p p' h
  refine ⟨by rw [hq]; rfl, by rw [hq]; rfl, by rw [hq]; rfl,
    tokenizeCore_unbalanced_stops line p p' h, ?_⟩
  intro g
  unfold sessionStep tokenize
  rw [h]
  rw [if_pos (by rw [hq]; rfl)]
  show g ++ p'.tokens = g
  rw [hq]
  show g ++ [] = g
  exact List.append_nil g

/-- Witness for C2: the single-line fragment `+++]` errors, ends in the
cleared state with `prev_cursor = 3`, and commits nothing. -/
theorem c2_unbalanced_close_witness :
    (⟨[], [], 0, 3⟩ : Parser).tokens = [] ∧
    (⟨[], [], 0, 3⟩ : Parser).match_stack = [] ∧
    (⟨[], [], 0, 3⟩ : Parser).cursor = 0 ∧
    (∀ rest, tokenizeCore Parser.new ((("+++]").toList) ++ rest)
      = (⟨[], [], 0, 3⟩, .unbalanced)) ∧
    (∀ g, (sessionStep (g, Parser.new) (("+++]").toList)).1 = g) :=
  c2_unbalanced_close Parser.new ⟨[], [], 0, 3⟩ (("+++]").toList) (by decide)

/-! ## C9 and C10: the Input instruction -/

/-- C9 counterexample: for the supplied console line `" A"` (leading
space), the claim predicts that the first character of the line — the
space, whose 8-bit truncation is 32 — is added to the cell, but the code
trims the line before taking its first character and adds 65. -/
theorem c9_counterexample :
    (({ Brain.new with stdin := [([' ', 'A'])] }).input).cells = [65] ∧
    ((' ').toNat % 256) = 32 ∧ (65 : Nat) ≠ 32 :=
  ⟨by decide, by decide, by decide⟩

theorem input_eof (b : Brain) (h : b.stdin = []) : b.input = b := by
  unfold Brain.input Brain.read_byte
  rw [h]
  rfl

theorem input_reads_trim (b : Brain) (l : List Char) (rest : List (List Char))
    (h : b.stdin = l :: rest) :
    (trim l = [] → b.input = { b with stdin := rest }) ∧
    (∀ c cs, trim l = c :: cs →
      b.input = ({ b with stdin := rest }).add (c.toNat % 256)) := by
  constructor
  · intro htr
    unfold Brain.input Brain.read_byte
    rw [h]
    show (match (read_input l).head? with
      | some n => ({ b with stdin := rest } : Brain).add (n.toNat % 256)
      | none => ({ b with stdin := rest } : Brain)) = _
    unfold read_input
    rw [htr]
    rfl
  · intro c cs htr
    unfold Brain.input Brain.read_byte
    rw [h]
    show (match (read_input l).head? with
      | some n => ({ b with stdin := rest } : Brain).add (n.toNat % 256)
      | none => ({ b with stdin := rest } : Brain)) = _
    unfold read_input
    rw [htr]
    rfl

/-- C9 (amended): for every execution of the Input instruction, if the
supplied line trims to empty — in particular a fully empty line, or EOF,
where `read_line` leaves the buffer empty so no byte is taken — the cell
is left unchanged and no error is raised; otherwise the first character
of the *trimmed* line is truncated to 8 bits and added to the current
cell by `Brain::add`, the same wraparound addition as increment
(`increment` is literally `add 1`) generalized to an arbitrary byte. -/
theorem c9_input_first_trimmed_char (b : Brain) :
    (b.stdin = [] → b.input = b) ∧
    (∀ l rest, b.stdin = l :: rest →
      (trim l = [] → b.input = { b with stdin := rest }) ∧
      (∀ c cs, trim l = c :: cs →
        b.input = ({ b with stdin := rest }).add (c.toNat % 256))) ∧
    b.increment = b.add 1 :=
  ⟨input_eof b, fun l rest h => input_reads_trim b l rest h, rfl⟩

/-- Witness for C9 at a concrete brain: input line `"A"` adds byte 65. -/
theorem c9_input_first_trimmed_char_witness :
    ({ Brain.new with stdin := [(("A").toList)] }).input
      = ({ Brain.new with stdin := [] }).add (('A').toNat % 256) :=
  ((c9_input_first_trimmed_char _).2.1 (("A").toList) [] rfl).2 'A' []
    (by decide)

/-- C10: the raw console line is trimmed (Rust `str::trim`, Unicode
whitespace) before the first character is extracted: if the first
non-whitespace character of the line is `c`, the byte added is the 8-bit
truncation of `c` — not of any leading whitespace character — and a line
of only whitespace behaves like the fully empty line, leaving the brain
unchanged except for consuming the line. -/
theorem c10_input_trims (b : Brain) (l : List Char) (rest : List (List Char))
    (h : b.stdin = l :: rest) :
    (∀ c cs, l.dropWhile isRustWhitespace = c :: cs →
      b.input = ({ b with stdin := rest }).add (c.toNat % 256)) ∧
    ((∀ x ∈ l, isRustWhitespace x) → b.input = { b with stdin := rest }) := by
  constructor
  · intro c cs hdw
    obtain ⟨cs', htr⟩ := trim_cons_of_head l c cs hdw
    exact (input_reads_trim b l rest h).2 c cs' htr
  · intro hws
    exact (input_reads_trim b l rest h).1 (trim_of_all_whitespace l hws)

/-- Witness for C10: line `" A"` adds byte 65 (not 32). -/
theorem c10_input_trims_witness :
    ({ Brain.new with stdin := [([' ', 'A'])] }).input
      = ({ Brain.new with stdin := [] }).add (('A').toNat % 256) :=
  (c10_input_trims { Brain.new with stdin := [([' ', 'A'])] }
    ([' ', 'A']) [] rfl).1 'A' [] (by decide)

/-! ## C7: the tape invariant -/

theorem tapeInv_iff (b : Brain) :
    TapeInv b ↔ 1 ≤ b.cells.length ∧ b.ptr < b.cells.length := Iff.rfl

theorem ptr_right_eq (b : Brain) :
    b.ptr_right = if b.ptr + 1 > b.cells.length - 1 then
      { b with ptr := b.ptr + 1, cells := b.cells ++ [0] }
    else { b with ptr := b.ptr + 1 } := rfl

theorem input_shape (b : Brain) :
    (b.input).cells.length = b.cells.length ∧ (b.input).ptr = b.ptr := by
  cases h : b.stdin with
  | nil => rw [input_eof b h]; exact ⟨rfl, rfl⟩
  | cons l rest =>
    rcases htr : trim l with _ | ⟨c, cs⟩
    · rw [(input_reads_trim b l rest h).1 htr]; exact ⟨rfl, rfl⟩
    · rw [(input_reads_trim b l rest h).2 c cs htr]
      simp [Brain.add]

theorem iterRight_grows : ∀ (n : Nat) (b : Brain), 1 ≤ b.cells.length →
    b.ptr = b.cells.length - 1 →
    (iterRight n b).cells.length = b.cells.length + n ∧
    1 ≤ (iterRight n b).cells.length ∧
    (iterRight n b).ptr = (iterRight n b).cells.length - 1
  | 0, _, h1, h2 => ⟨rfl, h1, h2⟩
  | n + 1, b, h1, h2 => by
    have hc : b.ptr + 1 > b.cells.length - 1 := by omega
    have hstep : b.ptr_right
        = { b with ptr := b.ptr + 1, cells := b.cells ++ [0] } := by
      rw [ptr_right_eq, if_pos hc]
    have h1' : 1 ≤ b.ptr_right.cells.length := by
      rw [hstep]; simp
    have h2' : b.ptr_right.ptr = b.ptr_right.cells.length - 1 := by
      rw [hstep]; simp; omega
    have hrec := iterRight_grows n b.ptr_right h1' h2'
    have hlen : b.ptr_right.cells.length = b.cells.length + 1 := by
      rw [hstep]; simp
    refine ⟨?_, hrec.2.1, hrec.2.2⟩
    show (iterRight n b.ptr_right).cells.length = b.cells.length + (n + 1)
    rw [hrec.1, hlen]
    omega

/-- C7: the tape invariant (length ≥ 1, cursor in bounds) holds for the
fresh tape `[0]` with cursor 0 and is preserved by every tape operation;
`ptr_right` increments the cursor and appends one zero cell exactly when
the incremented cursor passes the last valid index (under the invariant:
exactly when the cursor sat on the last cell), so n consecutive moves
right from a fresh tape give length n + 1; `ptr_left` at cursor 0 is a
no-op and otherwise decrements (`Nat` subtraction: never negative); and
no operation ever shrinks the tape. -/
theorem c7_tape_invariant :
    (TapeInv Brain.new ∧ Brain.new.cells = [0] ∧ Brain.new.ptr = 0) ∧
    (∀ b : Brain, TapeInv b →
      (TapeInv b.ptr_right ∧ b.ptr_right.ptr = b.ptr + 1 ∧
        b.ptr_right.cells = (if b.ptr + 1 > b.cells.length - 1
          then b.cells ++ [0] else b.cells) ∧
        (b.ptr + 1 > b.cells.length - 1 ↔ b.ptr = b.cells.length - 1)) ∧
      (TapeInv b.ptr_left ∧ (b.ptr = 0 → b.ptr_left = b) ∧
        b.ptr_left.ptr = b.ptr - 1 ∧ b.ptr_left.cells = b.cells) ∧
      ((∀ n, TapeInv (b.add n)) ∧ TapeInv b.increment ∧ TapeInv b.decrement ∧
        TapeInv b.output ∧ TapeInv b.input) ∧
      (b.cells.length ≤ b.ptr_right.cells.length ∧
        b.ptr_left.cells.length = b.cells.length ∧
        (∀ n, (b.add n).cells.length = b.cells.length) ∧
        b.increment.cells.length = b.cells.length ∧
        b.decrement.cells.length = b.cells.length ∧
        b.output.cells.length = b.cells.length ∧
        b.input.cells.length = b.cells.length)) ∧
    (∀ n, (iterRight n Brain.new).cells.length = n + 1) := by
  refine ⟨⟨by decide, rfl, rfl⟩, ?_, ?_⟩
  · intro b hb
    rw [tapeInv_iff] at hb
    have hright : TapeInv b.ptr_right ∧ b.ptr_right.ptr = b.ptr + 1 ∧
        b.ptr_right.cells = (if b.ptr + 1 > b.cells.length - 1
          then b.cells ++ [0] else b.cells) := by
      by_cases hc : b.ptr + 1 > b.cells.length - 1
      · rw [ptr_right_eq, if_pos hc, if_pos hc]
        refine ⟨?_, rfl, rfl⟩
        rw [tapeInv_iff]
        simp
        omega
      · rw [ptr_right_eq, if_neg hc, if_neg hc]
        refine ⟨?_, rfl, rfl⟩
        rw [tapeInv_iff]
        simp
        omega
    have hleft : TapeInv b.ptr_left ∧ (b.ptr = 0 → b.ptr_left = b) ∧
        b.ptr_left.ptr = b.ptr - 1 ∧ b.ptr_left.cells = b.cells := by
      unfold Brain.ptr_left
      by_cases hp : b.ptr = 0
      · rw [if_pos hp]
        exact ⟨by rw [tapeInv_iff]; omega, fun _ => rfl, by omega, rfl⟩
      · rw [if_neg hp]
        refine ⟨?_, fun h => absurd h hp, rfl, rfl⟩
        rw [tapeInv_iff]
        simp
        omega
    have hsetlen : ∀ v, (b.cells.set b.ptr v).length = b.cells.length :=
      fun v => List.length_set b.cells b.ptr v
    have hadd : ∀ n, TapeInv (b.add n) := by
      intro n
      rw [tapeInv_iff]
      unfold Brain.add
      simp
      omega
    have haddlen : ∀ n, (b.add n).cells.length = b.cells.length := by
      intro n
      unfold Brain.add
      simp
    have hinp : TapeInv b.input := by
      rw [tapeInv_iff, (input_shape b).1, (input_shape b).2]
      omega
    refine ⟨⟨hright.1, hright.2.1, hright.2.2, by omega⟩, hleft,
      ⟨hadd, hadd 1, ?_, ?_, hinp⟩,
      ?_, hleft.2.2.2 ▸ rfl, haddlen, haddlen 1, ?_, rfl, (input_shape b).1⟩
    · rw [tapeInv_iff]
      unfold Brain.decrement
      simp
      omega
    · rw [tapeInv_iff]
      unfold Brain.output
      simp
      omega
    · rw [hright.2.2]
      by_cases hc : b.ptr + 1 > b.cells.length - 1
      · rw [if_pos hc]; simp
      · rw [if_neg hc]
    · unfold Brain.decrement
      simp
  · intro n
    have h := (iterRight_grows n Brain.new (by decide) (by decide)).1
    have hone : (Brain.new).cells.length = 1 := rfl
    omega

/-- Witness for C7: the invariant-preservation components applied at the
fresh brain. -/
theorem c7_tape_invariant_witness :
    TapeInv (Brain.ptr_right Brain.new) ∧ TapeInv (Brain.ptr_left Brain.new) :=
  ⟨(c7_tape_invariant.2.1 Brain.new (by decide)).1.1,
   (c7_tape_invariant.2.1 Brain.new (by decide)).2.1.1⟩

/-! ## C6: chunked tokenizing agrees with one-shot tokenizing -/

/-- C6: splitting an input across two successive tokenize calls on the same
parser state — when the first call runs to completion, as it does for the
open half of a bracket pair such as `"[+"` then `"]"` — produces exactly
the same parser state, hence the identical resolved instruction sequence
with identical jump targets, as tokenizing the concatenated input in a
single call. -/
theorem c6_split_concat (p : Parser) (s1 s2 : List Char)
    (h : (tokenizeCore p s1).2 = .normal) :
    tokenizeCore p (s1 ++ s2) = tokenizeCore (tokenizeCore p s1).1 s2 := by
  induction s1 generalizing p with
  | nil => rfl
  | cons c cs ih =>
    rw [tokenizeCore] at h
    rw [List.cons_append, tokenizeCore]
    conv_rhs => rw [tokenizeCore]
    split at h
    · exact ih _ h
    · exact absurd h (by simp)
    · exact absurd h (by simp)

/-- Witness for C6: the bracket pair `[+` / `]` split across two calls. -/
theorem c6_split_concat_witness :
    tokenizeCore Parser.new ((("[+").toList) ++ (("]").toList))
      = tokenizeCore (tokenizeCore Parser.new (("[+").toList)).1 (("]").toList) :=
  c6_split_concat Parser.new (("[+").toList) (("]").toList) (by decide)

/-! ## C8: the end-to-end demo program -/

/-- C8: tokenizing `++++++[>++++++++++<-]>+++++.` in a fresh session
completes normally with nothing pending, the committed fragment has 28
instructions, and running it to completion (the loop exits with the
instruction pointer at the end) leaves exactly the single byte 65 in the
output buffer, which the final flush then prints. -/
theorem c8_end_to_end :
    (tokenizeCore Parser.new progA).2 = .normal ∧
    (tokenize Parser.new progA).match_stack = [] ∧
    (Interpreter.interpret 200
      (Interpreter.new.take_tokens (tokenize Parser.new progA).tokens)).tokens.length
      = 28 ∧
    (Interpreter.interpret 200
      (Interpreter.new.take_tokens (tokenize Parser.new progA).tokens)).cursor
      = 28 ∧
    (Interpreter.interpret 200
      (Interpreter.new.take_tokens (tokenize Parser.new progA).tokens)).brain.output_buffer
      = [65] ∧
    ((Interpreter.interpret 200
      (Interpreter.new.take_tokens (tokenize Parser.new progA).tokens)).brain.flush_output_buffer).2
      = [65] :=
  ⟨by decide, by decide, by decide, by decide, by decide, by decide⟩

/-! ## C1: the bracket-resolution invariant -/

theorem getElem?_append_snoc (g T : List Token) (x : Token) (m : Nat) :
    (g ++ (T ++ [x]))[m]? = if m = g.length + T.length then some x
      else (g ++ T)[m]? := by
  rw [← List.append_assoc, getElem?_snoc, List.length_append]

theorem inv_push_token {g : List Token} {p : Parser} {t : Token}
    (hf : ∀ i, t ≠ Token.JumpForward i) (hb : ∀ i, t ≠ Token.JumpBackward i)
    (h : Inv g p) : Inv g (p.push_token t) := by
  obtain ⟨h1, h2, h3, h4, h5, h6, h7⟩ := h
  have e1 : (p.push_token t).tokens = p.tokens ++ [t] := rfl
  have e2 : (p.push_token t).match_stack = p.match_stack := rfl
  have e3 : (p.push_token t).cursor = p.cursor + 1 := rfl
  have e4 : (p.push_token t).prev_cursor = p.prev_cursor := rfl
  refine ⟨?_, ?_, ?_, ?_, ?_, ?_, ?_⟩
  · rw [e4]
    exact h1
  · rw [e3, e1, List.length_append, h2]
    rfl
  · rw [e2]
    exact h3
  · intro j hj
    rw [e2] at hj
    obtain ⟨hjl, hjt⟩ := h4 j hj
    rw [e1]
    refine ⟨by simp; omega, ?_⟩
    rw [List.getElem?_append_left hjl]
    exact hjt
  · intro k t' hk
    rw [e1, getElem?_append_snoc] at hk
    rw [e1]
    split at hk
    · exact absurd (Option.some.inj hk) (hb t')
    · obtain ⟨hlt, hjf⟩ := h5 k t' hk
      have hb' : t' < g.length + p.tokens.length := by
        have := (List.getElem?_eq_some_iff.mp hjf).1
        simpa [List.length_append] using this
      refine ⟨hlt, ?_⟩
      rw [getElem?_append_snoc, if_neg (by omega)]
      exact hjf
  · intro i t' hi
    rw [e1, getElem?_append_snoc] at hi
    rw [e1, e2]
    split at hi
    · exact absurd (Option.some.inj hi) (hf t')
    · rcases h6 i t' hi with ⟨ht0, j, hjmem, hij⟩ | ⟨hlt, hjb⟩
      · exact Or.inl ⟨ht0, j, hjmem, hij⟩
      · have hb' : t' < g.length + p.tokens.length := by
          have := (List.getElem?_eq_some_iff.mp hjb).1
          simpa [List.length_append] using this
        refine Or.inr ⟨hlt, ?_⟩
        rw [getElem?_append_snoc, if_neg (by omega)]
        exact hjb
  · intro k t' hk hkL
    rw [e1, getElem?_append_snoc] at hk
    split at hk
    · exact absurd (Option.some.inj hk) (hb t')
    · exact h7 k t' hk hkL

theorem inv_open {g : List Token} {p : Parser} (h : Inv g p) :
    Inv g ((p.push_match (.JumpForward 0)).1) := by
  obtain ⟨h1, h2, h3, h4, h5, h6, h7⟩ := h
  have e1 : ((p.push_match (.JumpForward 0)).1).tokens
      = p.tokens ++ [Token.JumpForward 0] := rfl
  have e2 : ((p.push_match (.JumpForward 0)).1).match_stack
      = p.cursor :: p.match_stack := rfl
  have e3 : ((p.push_match (.JumpForward 0)).1).cursor = p.cursor + 1 := rfl
  have e4 : ((p.push_match (.JumpForward 0)).1).prev_cursor
      = p.prev_cursor := rfl
  refine ⟨?_, ?_, ?_, ?_, ?_, ?_, ?_⟩
  · rw [e4]
    exact h1
  · rw [e3, e1, List.length_append, h2]
    rfl
  · rw [e2]
    refine List.Pairwise.cons ?_ h3
    intro j hj
    have := (h4 j hj).1
    omega
  · intro j hj
    rw [e2] at hj
    rw [e1]
    rcases List.mem_cons.mp hj with hj | hj
    · subst hj
      refine ⟨by simp; omega, ?_⟩
      rw [h2]
      exact List.getElem?_concat_length _ _
    · obtain ⟨hjl, hjt⟩ := h4 j hj
      refine ⟨by simp; omega, ?_⟩
      rw [List.getElem?_append_left hjl]
      exact hjt
  · intro k t' hk
    rw [e1, getElem?_append_snoc] at hk
    rw [e1]
    split at hk
    · exact Token.noConfusion (Option.some.inj hk)
    · obtain ⟨hlt, hjf⟩ := h5 k t' hk
      have hb' : t' < g.length + p.tokens.length := by
        have := (List.getElem?_eq_some_iff.mp hjf).1
        simpa [List.length_append] using this
      refine ⟨hlt, ?_⟩
      rw [getElem?_append_snoc, if_neg (by omega)]
      exact hjf
  · intro i t' hi
    rw [e1, getElem?_append_snoc] at hi
    rw [e1, e2]
    split at hi
    · rename_i hieq
      have ht0 : (0 : Nat) = t' := Token.JumpForward.inj (Option.some.inj hi)
      refine Or.inl ⟨ht0.symm, p.cursor, List.mem_cons_self _ _, ?_⟩
      rw [hieq, h2]
    · rcases h6 i t' hi with ⟨ht0, j, hjmem, hij⟩ | ⟨hlt, hjb⟩
      · exact Or.inl ⟨ht0, j, List.mem_cons_of_mem _ hjmem, hij⟩
      · have hb' : t' < g.length + p.tokens.length := by
          have := (List.getElem?_eq_some_iff.mp hjb).1
          simpa [List.length_append] using this
        refine Or.inr ⟨hlt, ?_⟩
        rw [getElem?_append_snoc, if_neg (by omega)]
        exact hjb
  · intro k t' hk hkL
    rw [e1, getElem?_append_snoc] at hk
    split at hk
    · exact Token.noConfusion (Option.some.inj hk)
    · exact h7 k t' hk hkL

theorem inv_close {g : List Token} {p : Parser} {i : Nat} {rest : List Nat}
    (hms : p.match_stack = i :: rest) (h : Inv g p) :
    Inv g ((p.push_match (.JumpBackward 0)).1) := by
  obtain ⟨h1, h2, h3, h4, h5, h6, h7⟩ := h
  have hmemi : i ∈ p.match_stack := by
    rw [hms]
    exact List.mem_cons_self _ _
  obtain ⟨hin, hiph⟩ := h4 i hmemi
  have hsort := h3
  rw [hms] at hsort
  have hirest : ∀ j ∈ rest, j < i := (List.pairwise_cons.mp hsort).1
  have hrest_sorted : rest.Pairwise (· > ·) := (List.pairwise_cons.mp hsort).2
  have e1 : ((p.push_match (.JumpBackward 0)).1).tokens
      = (p.tokens.set i (.JumpForward (p.cursor + p.prev_cursor)))
        ++ [.JumpBackward (i + p.prev_cursor)] := by
    unfold Parser.push_match
    rw [hms]
    rfl
  have e2 : ((p.push_match (.JumpBackward 0)).1).match_stack = rest := by
    unfold Parser.push_match
    rw [hms]
    rfl
  have e3 : ((p.push_match (.JumpBackward 0)).1).cursor = p.cursor + 1 := by
    unfold Parser.push_match
    rw [hms]
    rfl
  have e4 : ((p.push_match (.JumpBackward 0)).1).prev_cursor
      = p.prev_cursor := by
    unfold Parser.push_match
    rw [hms]
    rfl
  have hFi : (g ++ p.tokens)[g.length + i]? = some (Token.JumpForward 0) := by
    rw [List.getElem?_append_right (by omega), Nat.add_sub_cancel_left]
    exact hiph
  have hget : ∀ m,
      (g ++ ((p.tokens.set i (.JumpForward (p.cursor + p.prev_cursor)))
        ++ [.JumpBackward (i + p.prev_cursor)]))[m]?
      = if m = g.length + i
        then some (Token.JumpForward (p.cursor + p.prev_cursor))
        else if m = g.length + p.tokens.length
        then some (Token.JumpBackward (i + p.prev_cursor))
        else (g ++ p.tokens)[m]? := by
    intro m
    rw [getElem?_append_snoc, List.length_set]
    by_cases hm2 : m = g.length + p.tokens.length
    · rw [if_pos hm2, if_neg (by omega), if_pos hm2]
    · rw [if_neg hm2, if_neg hm2]
      by_cases hm1 : m = g.length + i
      · rw [if_pos hm1, hm1]
        rw [List.getElem?_append_right (by omega), Nat.add_sub_cancel_left]
        exact List.getElem?_set_self hin
      · rw [if_neg hm1]
        rcases Nat.lt_or_ge m g.length with hmL | hmL
        · rw [List.getElem?_append_left hmL, List.getElem?_append_left hmL]
        · rw [List.getElem?_append_right hmL, List.getElem?_append_right hmL]
          rw [List.getElem?_set_ne (by omega)]
  refine ⟨?_, ?_, ?_, ?_, ?_, ?_, ?_⟩
  · rw [e4]
    exact h1
  · rw [e3, e1, List.length_append, List.length_set, h2]
    rfl
  · rw [e2]
    exact hrest_sorted
  · intro j hj
    rw [e2] at hj
    obtain ⟨hjl, hjt⟩ := h4 j (by rw [hms]; exact List.mem_cons_of_mem _ hj)
    have hji : j < i := hirest j hj
    rw [e1]
    refine ⟨by simp [List.length_set]; omega, ?_⟩
    rw [List.getElem?_append_left (by simp [List.length_set]; omega)]
    rw [List.getElem?_set_ne (by omega)]
    exact hjt
  · intro k t' hk
    rw [e1, hget] at hk
    rw [e1]
    split at hk
    · exact Token.noConfusion (Option.some.inj hk)
    · rename_i hne1
      split at hk
      · rename_i heq2
        have ht' : t' = i + p.prev_cursor :=
          (Token.JumpBackward.inj (Option.some.inj hk)).symm
        refine ⟨by omega, ?_⟩
        rw [hget, if_pos (by omega)]
        simp only [Option.some.injEq, Token.JumpForward.injEq]
        omega
      · rename_i hne2
        obtain ⟨hlt, hjf⟩ := h5 k t' hk
        refine ⟨hlt, ?_⟩
        rw [hget]
        by_cases ht1 : t' = g.length + i
        · exfalso
          rw [ht1, hFi] at hjf
          have := Token.JumpForward.inj (Option.some.inj hjf)
          omega
        · by_cases ht2 : t' = g.length + p.tokens.length
          · exfalso
            rw [ht2, List.getElem?_eq_none (by simp)] at hjf
            exact Option.noConfusion hjf
          · rw [if_neg ht1, if_neg ht2]
            exact hjf
  · intro i' t' hi'
    rw [e1, hget] at hi'
    rw [e1, e2]
    split at hi'
    · rename_i heq1
      have ht' : t' = p.cursor + p.prev_cursor :=
        (Token.JumpForward.inj (Option.some.inj hi')).symm
      refine Or.inr ⟨by omega, ?_⟩
      rw [hget, if_neg (by omega), if_pos (by omega)]
      simp only [Option.some.injEq, Token.JumpBackward.injEq]
      omega
    · rename_i hne1
      split at hi'
      · exact Token.noConfusion (Option.some.inj hi')
      · rename_i hne2
        rcases h6 i' t' hi' with ⟨ht0, j, hjmem, hij⟩ | ⟨hlt, hjb⟩
        · rw [hms] at hjmem
          rcases List.mem_cons.mp hjmem with hji | hjr
          · exact absurd (by rw [hij, hji]) hne1
          · exact Or.inl ⟨ht0, j, hjr, hij⟩
        · refine Or.inr ⟨hlt, ?_⟩
          rw [hget]
          by_cases ht1 : t' = g.length + i
          · exfalso
            rw [ht1, hFi] at hjb
            exact Token.noConfusion (Option.some.inj hjb)
          · by_cases ht2 : t' = g.length + p.tokens.length
            · exfalso
              rw [ht2, List.getElem?_eq_none (by simp)] at hjb
              exact Option.noConfusion hjb
            · rw [if_neg ht1, if_neg ht2]
              exact hjb
  · intro k t' hk hkL
    rw [e1, hget] at hk
    split at hk
    · exact Token.noConfusion (Option.some.inj hk)
    · split at hk
      · have ht' : t' = i + p.prev_cursor :=
          (Token.JumpBackward.inj (Option.some.inj hk)).symm
        omega
      · exact h7 k t' hk hkL

theorem inv_commit {g : List Token} {p : Parser} (hms : p.match_stack = [])
    (h : Inv g p) : Inv (g ++ p.tokens) p.reset := by
  obtain ⟨h1, h2, _h3, _h4, h5, h6, _h7⟩ := h
  refine ⟨?_, rfl, List.Pairwise.nil, ?_, ?_, ?_, ?_⟩
  · show p.prev_cursor + p.cursor = (g ++ p.tokens).length
    rw [h1, h2, List.length_append]
  · intro j hj
    exact absurd hj (List.not_mem_nil j)
  · intro k t hk
    rw [show Parser.reset p = ⟨[], [], 0, p.prev_cursor + p.cursor⟩ from rfl] at hk ⊢
    rw [List.append_nil] at hk ⊢
    exact h5 k t hk
  · intro i t hi
    rw [show Parser.reset p = ⟨[], [], 0, p.prev_cursor + p.cursor⟩ from rfl] at hi ⊢
    rw [List.append_nil] at hi ⊢
    rcases h6 i t hi with ⟨_, j, hjmem, _⟩ | ⟨hlt, hjb⟩
    · rw [hms] at hjmem
      exact absurd hjmem (List.not_mem_nil j)
    · exact Or.inr ⟨hlt, hjb⟩
  · intro k t hk hkL
    rw [show Parser.reset p = ⟨[], [], 0, p.prev_cursor + p.cursor⟩ from rfl] at hk
    rw [List.append_nil] at hk
    have := (List.getElem?_eq_some_iff.mp hk).1
    omega

theorem tokStep_char (p : Parser) (c : Char) :
    (∃ t, (∀ i, t ≠ Token.JumpForward i) ∧ (∀ i, t ≠ Token.JumpBackward i) ∧
       tokStep p c = (p.push_token t, .normal)) ∨
    tokStep p c = ((p.push_match (.JumpForward 0)).1, .normal) ∨
    (∃ i rest, p.match_stack = i :: rest ∧
       tokStep p c = ((p.push_match (.JumpBackward 0)).1, .normal)) ∨
    (p.match_stack = [] ∧ tokStep p c = (p.reset, .unbalanced)) ∨
    tokStep p c = (p, .quit) ∨ tokStep p c = (p, .normal) := by
  by_cases h1 : c = '>'
  · exact Or.inl ⟨_, fun i h => Token.noConfusion h,
      fun i h => Token.noConfusion h, by unfold tokStep; rw [if_pos h1]⟩
  by_cases h2 : c = '<'
  · exact Or.inl ⟨_, fun i h => Token.noConfusion h,
      fun i h => Token.noConfusion h,
      by unfold tokStep; rw [if_neg h1, if_pos h2]⟩
  by_cases h3 : c = '+'
  · exact Or.inl ⟨_, fun i h => Token.noConfusion h,
      fun i h => Token.noConfusion h,
      by unfold tokStep; rw [if_neg h1, if_neg h2, if_pos h3]⟩
  by_cases h4 : c = '-'
  · exact Or.inl ⟨_, fun i h => Token.noConfusion h,
      fun i h => Token.noConfusion h,
      by unfold tokStep; rw [if_neg h1, if_neg h2, if_neg h3, if_pos h4]⟩
  by_cases h5 : c = '.'
  · exact Or.inl ⟨_, fun i h => Token.noConfusion h,
      fun i h => Token.noConfusion h,
      by unfold tokStep;
         rw [if_neg h1, if_neg h2, if_neg h3, if_neg h4, if_pos h5]⟩
  by_cases h6 : c = ','
  · exact Or.inl ⟨_, fun i h => Token.noConfusion h,
      fun i h => Token.noConfusion h,
      by unfold tokStep;
         rw [if_neg h1, if_neg h2, if_neg h3, if_neg h4, if_neg h5, if_pos h6]⟩
  by_cases h7 : c = '['
  · refine Or.inr (Or.inl ?_)
    unfold tokStep
    rw [if_neg h1, if_neg h2, if_neg h3, if_neg h4, if_neg h5, if_neg h6,
      if_pos h7]
    rfl
  by_cases h8 : c = ']'
  · cases hms : p.match_stack with
    | nil =>
      refine Or.inr (Or.inr (Or.inr (Or.inl ⟨rfl, ?_⟩)))
      unfold tokStep
      rw [if_neg h1, if_neg h2, if_neg h3, if_neg h4, if_neg h5, if_neg h6,
        if_neg h7, if_pos h8]
      simp only [Parser.push_match, hms]
      rfl
    | cons i rest =>
      refine Or.inr (Or.inr (Or.inl ⟨i, rest, rfl, ?_⟩))
      unfold tokStep
      rw [if_neg h1, if_neg h2, if_neg h3, if_neg h4, if_neg h5, if_neg h6,
        if_neg h7, if_pos h8]
      simp only [Parser.push_match, hms]
      rfl
  by_cases h9 : c = '?'
  · refine Or.inr (Or.inr (Or.inr (Or.inr (Or.inl ?_))))
    unfold tokStep
    rw [if_neg h1, if_neg h2, if_neg h3, if_neg h4, if_neg h5, if_neg h6,
      if_neg h7, if_neg h8, if_pos h9]
  · refine Or.inr (Or.inr (Or.inr (Or.inr (Or.inr ?_))))
    unfold tokStep
    rw [if_neg h1, if_neg h2, if_neg h3, if_neg h4, if_neg h5, if_neg h6,
      if_neg h7, if_neg h8, if_neg h9]

theorem inv_tokStep {g : List Token} {p : Parser} (c : Char)
    (h : Inv g p) (hok : (tokStep p c).2 ≠ TokExit.unbalanced) :
    Inv g (tokStep p c).1 := by
  rcases tokStep_char p c with ⟨t, hf, hb, heq⟩ | heq | ⟨i, rest, hms, heq⟩
    | ⟨hms, heq⟩ | heq | heq
  · rw [heq]
    exact inv_push_token hf hb h
  · rw [heq]
    exact inv_open h
  · rw [heq]
    exact inv_close hms h
  · rw [heq] at hok
    exact absurd rfl hok
  · rw [heq]
    exact h
  · rw [heq]
    exact h

theorem inv_tokenizeCore : ∀ (line : List Char) {g : List Token} {p : Parser},
    Inv g p → (tokenizeCore p line).2 ≠ TokExit.unbalanced →
    Inv g (tokenizeCore p line).1 := by
  intro line
  induction line with
  | nil => intro g p h _; exact h
  | cons c cs ih =>
    intro g p h hok
    rw [tokenizeCore] at hok ⊢
    split at hok
    · rename_i heq
      exact ih (inv_tokStep c h (by rw [heq]; simp)) hok
    · exact absurd rfl hok
    · rename_i heq
      exact inv_tokStep c h (by rw [heq]; simp)

theorem inv_sessionStep {g : List Token} {p : Parser} (line : List Char)
    (h : Inv g p) (hok : (tokenizeCore p line).2 ≠ TokExit.unbalanced) :
    Inv (sessionStep (g, p) line).1 (sessionStep (g, p) line).2 := by
  have h' := inv_tokenizeCore line h hok
  unfold sessionStep tokenize
  by_cases hms : (tokenizeCore p line).1.match_stack = []
  · rw [if_pos hms]
    exact inv_commit hms h'
  · rw [if_neg hms]
    exact h'

theorem inv_runSession_aux :
    ∀ (lines : List (List Char)) (g : List Token) (p : Parser),
    Inv g p → sessionOk p lines = true →
    Inv (lines.foldl sessionStep (g, p)).1 (lines.foldl sessionStep (g, p)).2 := by
  intro lines
  induction lines with
  | nil => intro g p h _; exact h
  | cons line rest ih =>
    intro g p h hok
    rw [sessionOk] at hok
    split at hok
    · exact absurd hok (by simp)
    · rename_i hnb
      rw [List.foldl_cons]
      have hstep := inv_sessionStep line h hnb
      have hps : (sessionStep (g, p) line).2
          = (if (tokenizeCore p line).1.match_stack = []
             then (tokenizeCore p line).1.reset else (tokenizeCore p line).1) := by
        show (if (tokenizeCore p line).1.match_stack = []
            then (g ++ (tokenizeCore p line).1.tokens,
              (tokenizeCore p line).1.reset)
            else (g, (tokenizeCore p line).1)).2 = _
        by_cases hms : (tokenizeCore p line).1.match_stack = []
        · rw [if_pos hms, if_pos hms]
        · rw [if_neg hms, if_neg hms]
      have hok' : sessionOk (sessionStep (g, p) line).2 rest = true := by
        rw [hps]
        exact hok
      exact ih _ _ hstep hok'

theorem inv_final {G : List Token} {p : Parser} (h : Inv G p) :
    (∀ k t, G[k]? = some (Token.JumpBackward t) →
      t < k ∧ G[t]? = some (Token.JumpForward k)) ∧
    (∀ i t, G[i]? = some (Token.JumpForward t) →
      i < t ∧ G[t]? = some (Token.JumpBackward i)) := by
  obtain ⟨_h1, _h2, _h3, _h4, h5, h6, h7⟩ := h
  constructor
  · intro k t hk
    have hkL : k < G.length := (List.getElem?_eq_some_iff.mp hk).1
    have hk' : (G ++ p.tokens)[k]? = some (Token.JumpBackward t) := by
      rw [List.getElem?_append_left hkL]
      exact hk
    obtain ⟨hlt, hjf⟩ := h5 k t hk'
    refine ⟨hlt, ?_⟩
    have heq : (G ++ p.tokens)[t]? = G[t]?
      := List.getElem?_append_left (by omega)
    rw [← heq]
    exact hjf
  · intro i t hi
    have hiL : i < G.length := (List.getElem?_eq_some_iff.mp hi).1
    have hi' : (G ++ p.tokens)[i]? = some (Token.JumpForward t) := by
      rw [List.getElem?_append_left hiL]
      exact hi
    rcases h6 i t hi' with ⟨_, j, _, hij⟩ | ⟨hlt, hjb⟩
    · exact absurd hij (by omega)
    · refine ⟨hlt, ?_⟩
      have htL : t < G.length := by
        by_contra hge
        push_neg at hge
        have := h7 t i hjb hge
        omega
      have heq : (G ++ p.tokens)[t]? = G[t]? := List.getElem?_append_left htL
      rw [← heq]
      exact hjb

/-- C1 counterexample: the session that tokenizes `+++]` (unbalanced close,
three instructions discarded) followed by `[]` (balanced, committed).  The
engine's accumulated global list is `[JumpForward 4, JumpBackward 3]`, so
the resolved pair's targets are 4 and 3 — not the mutual global indices 1
and 0 — because `Parser::reset` folded the three *discarded* instructions
into `prev_cursor`.  This refutes the claim for sessions containing an
earlier unbalanced-close error. -/
theorem c1_counterexample :
    (runSession [(("+++]").toList), (("[]").toList)]).1
        = [Token.JumpForward 4, Token.JumpBackward 3] ∧
    ¬ (∀ k t, ((runSession [(("+++]").toList), (("[]").toList)]).1)[k]?
          = some (Token.JumpBackward t) →
        t < k ∧ ((runSession [(("+++]").toList), (("[]").toList)]).1)[t]?
          = some (Token.JumpForward k)) := by
  refine ⟨by decide, ?_⟩
  intro hcl
  have h := (hcl 1 3 (by decide)).1
  omega

/-- C1 (amended): in every session whose tokenize calls never hit the
unbalanced-close error, the engine's accumulated global instruction list
is mutually resolved: every `JumpBackward` stores the global index of its
matching `JumpForward` (the earlier instruction that stores, in turn, the
`JumpBackward`'s own global index), and symmetrically every committed
`JumpForward` stores the global index of its matching `JumpBackward`. -/
theorem c1_resolved_targets (lines : List (List Char))
    (h : sessionOk Parser.new lines = true) :
    (∀ k t, (runSession lines).1[k]? = some (Token.JumpBackward t) →
      t < k ∧ (runSession lines).1[t]? = some (Token.JumpForward k)) ∧
    (∀ i t, (runSession lines).1[i]? = some (Token.JumpForward t) →
      i < t ∧ (runSession lines).1[t]? = some (Token.JumpBackward i)) := by
  have hinv0 : Inv [] Parser.new :=
    ⟨rfl, rfl, List.Pairwise.nil, fun j hj => absurd hj (List.not_mem_nil j),
     fun k t hk => by simp [Parser.new] at hk,
     fun i t hi => by simp [Parser.new] at hi,
     fun k t hk _ => by simp [Parser.new] at hk⟩
  exact inv_final (inv_runSession_aux lines [] Parser.new hinv0 h)

/-- Witness for C1 at the session consisting of the single line `[+]`:
the committed list is `[JumpForward 2, DataIncrement, JumpBackward 0]`
and the pair at indices 0 and 2 is mutually resolved. -/
theorem c1_resolved_targets_witness :
    (0 : Nat) < 2 ∧ (runSession [(("[+]").toList)]).1[0]?
      = some (Token.JumpForward 2) :=
  (c1_resolved_targets [(("[+]").toList)] (by decide)).1 2 0 (by decide)

end BrainfRepl
